import Mathlib

/-!
# Verification of the debiaswe notebook's embedding-analysis core

The repository is a single notebook (`src/tutorial_example1.ipynb`) that
loads a word-embedding table and analyses "bias directions".  This file
embeds the notebook's analysis core in Lean and settles the spec's claims
about it.

Modelling conventions:
* a word-embedding table is an ordered association list from words to
  `Fin n → α` vectors (the notebook's `WordEmbedding`);
* exact arithmetic (`ℚ` where the code only adds, multiplies and compares;
  `ℝ` where it divides by a Euclidean norm) stands in for floating point;
  in particular `x / 0 = 0` in Lean where NumPy would produce `nan`;
* operations of the `debiaswe.we` module that the notebook imports but whose
  source is not part of this repository are modelled from the spec and carry
  a doc comment saying so; everything else is translated from the notebook
  cells.
-/

namespace Debiaswe

/-- A vector of dimension `n` over the scalar type `α`. -/
abbrev Vec (α : Type) (n : ℕ) := Fin n → α

/-- Dot product, `v.dot(w)` of the notebook (NumPy `ndarray.dot`). -/
def dotp {α : Type} [CommRing α] {n : ℕ} (v w : Vec α n) : α :=
  ∑ i, v i * w i

/-- The embedding table: an ordered association list word ↦ vector.
Models the `WordEmbedding` object's word list and vector matrix. -/
abbrev Table (α : Type) (n : ℕ) := List (String × Vec α n)

/-- The ordered vocabulary of a table (`E.words`). -/
def vocab {α : Type} {n : ℕ} (t : Table α n) : List String :=
  t.map Prod.fst

/-- Word lookup returning the stored vector when the word is present. -/
def lookup {α : Type} {n : ℕ} (t : Table α n) (w : String) : Option (Vec α n) :=
  (t.find? (fun p => p.1 == w)).map Prod.snd

/-- Whether a word is in the vocabulary. -/
def hasWord {α : Type} {n : ℕ} (t : Table α n) (w : String) : Bool :=
  (lookup t w).isSome

/-- `E.v(w)`: the word's vector; the default value `0` is only ever reached
behind a `hasWord` guard, which models the `UnknownWordError` contract. -/
def vecOf {α : Type} [Zero α] {n : ℕ} (t : Table α n) (w : String) : Vec α n :=
  (lookup t w).getD 0

/-- The error kinds of the spec's section 7. -/
inductive EmbedError : Type
  | unknownWord
  | emptyGroup
  | indexOutOfRange
deriving DecidableEq

/-- Modelled from the spec: `from_pair` in unnormalized mode ("computes
`vector(word_pos) − vector(word_neg)`, returns it unnormalized"); the
notebook calls the imported `E.diff` whose source is not in this
repository.  Fails with `UnknownWordError` when a word is absent. -/
def from_pair {α : Type} [Ring α] {n : ℕ} (t : Table α n) (wp wn : String) :
    Except EmbedError (Vec α n) :=
  match lookup t wp, lookup t wn with
  | some vp, some vn => Except.ok (vp - vn)
  | _, _ => Except.error EmbedError.unknownWord

/-- Python's comparison on `(score, word)` tuples: lexicographic, score
first, then the word string.  This is the order `sorted` uses in the
notebook's `sorted([(E.v(w).dot(v_dir), w) for w in words])`. -/
def pair_le {α : Type} [LinearOrder α] (p q : α × String) : Prop :=
  p.1 < q.1 ∨ (p.1 = q.1 ∧ p.2 ≤ q.2)

instance {α : Type} [LinearOrder α] : DecidableRel (pair_le (α := α)) :=
  fun p q => by unfold pair_le; infer_instance

instance {α : Type} [LinearOrder α] : IsTotal (α × String) (pair_le (α := α)) := by
  constructor
  intro p q
  rcases lt_trichotomy p.1 q.1 with h | h | h
  · exact Or.inl (Or.inl h)
  · rcases le_total p.2 q.2 with h2 | h2
    · exact Or.inl (Or.inr ⟨h, h2⟩)
    · exact Or.inr (Or.inr ⟨h.symm, h2⟩)
  · exact Or.inr (Or.inl h)

instance {α : Type} [LinearOrder α] : IsTrans (α × String) (pair_le (α := α)) := by
  constructor
  rintro p q r (hpq | ⟨hpq, hpq2⟩) (hqr | ⟨hqr, hqr2⟩)
  · exact Or.inl (hpq.trans hqr)
  · exact Or.inl (hqr ▸ hpq)
  · exact Or.inl (hpq ▸ hqr)
  · exact Or.inr ⟨hpq.trans hqr, hpq2.trans hqr2⟩

/-- The notebook's profession ranking (cell with
`sp = sorted([(E_gnews.v(w).dot(v_gender), w) for w in profession_words])`):
score every candidate by its dot product with the direction and sort the
`(score, word)` pairs with Python's tuple order (a stable sort, but the
comparison key already includes the word).  The `UnknownWordError` shell for
absent candidates is modelled from the spec, since `E.v`'s source is not in
this repository. -/
def rank_by_projection {α : Type} [LinearOrderedField α] {n : ℕ} (t : Table α n)
    (d : Vec α n) (cands : List String) : Except EmbedError (List (α × String)) :=
  if cands.all (hasWord t) then
    Except.ok (List.insertionSort pair_le (cands.map (fun w => (dotp (vecOf t w) d, w))))
  else
    Except.error EmbedError.unknownWord

/-- The concrete 2-word, 2-dimensional vocabulary of the spec's scenarios,
over `ℚ`. -/
def table2q : Table ℚ 2 :=
  [("he", ![1, 0]), ("she", ![0, 1])]

/-- The concrete 4-word, 2-dimensional vocabulary of the spec's scenario,
over `ℚ`. -/
def table4q : Table ℚ 2 :=
  [("he", ![1, 0]), ("she", ![0, 1]), ("king", ![1, 1]), ("queen", ![0, 2])]

theorem he_le_she : ("he" : String) ≤ "she" := by
  rw [String.le_iff_toList_le]
  decide

theorem not_she_le_he : ¬ (("she" : String) ≤ "he") := by
  rw [String.le_iff_toList_le]
  decide

theorem king_le_queen : ("king" : String) ≤ "queen" := by
  rw [String.le_iff_toList_le]
  decide

theorem he_lt_she_chars : (['h', 'e'] : List Char) < ['s', 'h', 'e'] := by
  decide

/-- A `pair_le`-sorted list has non-decreasing scores. -/
theorem pairwise_score_of_sorted {α : Type} [LinearOrder α] {l : List (α × String)}
    (h : List.Sorted (pair_le (α := α)) l) :
    l.Pairwise (fun p q => p.1 ≤ q.1) := by
  refine h.imp ?_
  rintro p q (hlt | ⟨heq, _⟩)
  · exact le_of_lt hlt
  · exact le_of_eq heq

/-- A `pair_le`-sorted list breaks score ties by word order. -/
theorem pairwise_tie_of_sorted {α : Type} [LinearOrder α] {l : List (α × String)}
    (h : List.Sorted (pair_le (α := α)) l) :
    l.Pairwise (fun p q => p.1 = q.1 → p.2 ≤ q.2) := by
  refine h.imp ?_
  rintro p q (hlt | ⟨_, hle⟩) heq
  · exact absurd heq (ne_of_lt hlt)
  · exact hle

/-- When every candidate is in the vocabulary, `rank_by_projection` returns
the sorted scored list. -/
theorem rank_by_projection_ok {α : Type} [LinearOrderedField α] {n : ℕ}
    (t : Table α n) (d : Vec α n) (cands : List String)
    (hw : ∀ w ∈ cands, hasWord t w = true) :
    rank_by_projection t d cands =
      Except.ok (List.insertionSort pair_le
        (cands.map (fun w => (dotp (vecOf t w) d, w)))) := by
  unfold rank_by_projection
  rw [if_pos]
  exact List.all_eq_true.mpr hw

/-- Whatever list `rank_by_projection` returns is the sorted scored list. -/
theorem rank_by_projection_ok_inv {α : Type} [LinearOrderedField α] {n : ℕ}
    {t : Table α n} {d : Vec α n} {cands : List String} {l : List (α × String)}
    (h : rank_by_projection t d cands = Except.ok l) :
    l = List.insertionSort pair_le (cands.map (fun w => (dotp (vecOf t w) d, w))) := by
  unfold rank_by_projection at h
  by_cases hc : cands.all (hasWord t) = true
  · rw [if_pos hc] at h
    exact (Except.ok.injEq _ _ ▸ congrArg id h).symm ▸ (Except.ok.inj h).symm
  · rw [if_neg hc] at h
    exact absurd h (by simp)

/-- C3, as the spec states it, is refuted: with the zero direction the two
candidates "she" and "he" tie (both scores are `0`), the input order is
"she" before "he", yet the notebook's `sorted` on `(score, word)` tuples
returns "he" first, because Python's tuple comparison breaks score ties by
the word string, not by input position. -/
theorem C3_counterexample :
    dotp (vecOf table2q "she") ![0, 0] = dotp (vecOf table2q "he") ![0, 0]
    ∧ rank_by_projection table2q ![0, 0] ["she", "he"] =
        Except.ok [((0 : ℚ), "he"), (0, "she")]
    ∧ rank_by_projection table2q ![0, 0] ["she", "he"] ≠
        Except.ok [((0 : ℚ), "she"), (0, "he")] := by
  refine ⟨?_, ?_, ?_⟩
  · simp [table2q, vecOf, lookup, dotp, Fin.sum_univ_two]
  · simp [rank_by_projection, table2q, hasWord, lookup, vecOf, dotp,
      Fin.sum_univ_two, List.insertionSort, List.orderedInsert, pair_le,
      he_le_she, not_she_le_he, he_lt_she_chars]
  · simp [rank_by_projection, table2q, hasWord, lookup, vecOf, dotp,
      Fin.sum_univ_two, List.insertionSort, List.orderedInsert, pair_le,
      he_le_she, not_she_le_he, he_lt_she_chars]

/-- C3 (amended): in the notebook's ranking, candidates with equal
projection scores appear ordered by their word string (Python's tuple
comparison), not by original input position. -/
theorem C3_tie_order {n : ℕ} (t : Table ℚ n) (d : Vec ℚ n)
    (cands : List String) (l : List (ℚ × String))
    (h : rank_by_projection t d cands = Except.ok l) :
    l.Pairwise (fun p q => p.1 = q.1 → p.2 ≤ q.2) := by
  rw [rank_by_projection_ok_inv h]
  exact pairwise_tie_of_sorted (List.sorted_insertionSort _ _)

/-- Witness for C3 (amended) at the concrete tied input. -/
theorem C3_tie_order_witness :
    rank_by_projection table2q ![0, 0] ["she", "he"] =
      Except.ok [((0 : ℚ), "he"), (0, "she")]
    ∧ List.Pairwise (fun p q : ℚ × String => p.1 = q.1 → p.2 ≤ q.2)
        [((0 : ℚ), "he"), (0, "she")] := by
  have h : rank_by_projection table2q ![0, 0] ["she", "he"] =
      Except.ok [((0 : ℚ), "he"), (0, "she")] := by
    simp [rank_by_projection, table2q, hasWord, lookup, vecOf, dotp,
      Fin.sum_univ_two, List.insertionSort, List.orderedInsert, pair_le,
      he_le_she, not_she_le_he, he_lt_she_chars]
  exact ⟨h, C3_tie_order table2q ![0, 0] ["she", "he"] _ h⟩

/-- C4: over in-vocabulary candidates, the ranking output is sorted
ascending by score (all adjacent — indeed all — pairs non-decreasing), and
its words are a permutation of the input candidates: none dropped, none
duplicated. -/
theorem C4_sorted_and_permutation {n : ℕ} (t : Table ℚ n) (d : Vec ℚ n)
    (cands : List String) (hw : ∀ w ∈ cands, hasWord t w = true) :
    ∃ l, rank_by_projection t d cands = Except.ok l
      ∧ l.Pairwise (fun p q => p.1 ≤ q.1)
      ∧ (l.map Prod.snd).Perm cands := by
  refine ⟨_, rank_by_projection_ok t d cands hw,
    pairwise_score_of_sorted (List.sorted_insertionSort _ _), ?_⟩
  have hp := (List.perm_insertionSort pair_le
    (cands.map (fun w => (dotp (vecOf t w) d, w)))).map Prod.snd
  simpa [List.map_map, Function.comp_def] using hp

/-- Witness for C4 at a concrete candidate list. -/
theorem C4_sorted_and_permutation_witness :
    (∀ w ∈ ["king", "queen"], hasWord table4q w = true)
    ∧ ∃ l, rank_by_projection table4q ![-1, 1] ["king", "queen"] = Except.ok l
        ∧ l.Pairwise (fun p q => p.1 ≤ q.1)
        ∧ (l.map Prod.snd).Perm ["king", "queen"] := by
  have hw : ∀ w ∈ ["king", "queen"], hasWord table4q w = true := by
    intro w hwmem
    simp only [List.mem_cons, List.not_mem_nil, or_false] at hwmem
    rcases hwmem with rfl | rfl <;> simp [hasWord, lookup, table4q]
  exact ⟨hw, C4_sorted_and_permutation table4q ![-1, 1] ["king", "queen"] hw⟩

/-- C5: the spec's concrete 2-dimensional scenario: the unnormalized pair
direction for ("she","he") is `[-1, 1]`, "king" projects to `0`, "queen"
projects to `2`, and the ranking over those two candidates is ascending
`["king", "queen"]`. -/
theorem C5_concrete_scenario :
    from_pair table4q "she" "he" = Except.ok ![-1, 1]
    ∧ dotp (vecOf table4q "king") ![-1, 1] = 0
    ∧ dotp (vecOf table4q "queen") ![-1, 1] = 2
    ∧ rank_by_projection table4q ![-1, 1] ["king", "queen"] =
        Except.ok [((0 : ℚ), "king"), (2, "queen")] := by
  refine ⟨?_, ?_, ?_, ?_⟩
  · have hsub : (![(0 : ℚ), 1] - ![1, 0]) = ![-1, 1] := by
      funext i
      fin_cases i <;> simp
    simp [from_pair, lookup, table4q, hsub]
  · simp [dotp, vecOf, lookup, table4q, Fin.sum_univ_two]
  · simp [dotp, vecOf, lookup, table4q, Fin.sum_univ_two]
  · simp [rank_by_projection, table4q, hasWord, lookup, vecOf, dotp,
      Fin.sum_univ_two, List.insertionSort, List.orderedInsert, pair_le]

/-! ## Real-valued normalization core (notebook cell computing `v_racial`)

The racial-direction cell reads:
```
vs = [sum(E_gnews.v(w) for w in names) for names in (names_group2, names_group1)]
vs = [v / np.linalg.norm(v) for v in vs]
v_racial = vs[1] - vs[0]
v_racial = v_racial / np.linalg.norm(v_racial)
```
i.e. per group: sum the member vectors and normalize the sum to unit
Euclidean length; then normalize the difference of the two unit centroids.
-/

/-- Euclidean norm, `np.linalg.norm(v)`. -/
noncomputable def norm2 {n : ℕ} (v : Vec ℝ n) : ℝ :=
  Real.sqrt (dotp v v)

/-- `v / np.linalg.norm(v)` (in Lean real division, `x / 0 = 0`). -/
noncomputable def unitize {n : ℕ} (v : Vec ℝ n) : Vec ℝ n :=
  fun i => v i / norm2 v

/-- `sum(E.v(w) for w in g)`. -/
def groupSum {n : ℕ} (t : Table ℝ n) (g : List String) : Vec ℝ n :=
  (g.map (vecOf t)).sum

/-- `vs[1] - vs[0]`: the difference of the two unit group-centroids; its
norm is the magnitude the final normalization divides by. -/
noncomputable def centroid_diff {n : ℕ} (t : Table ℝ n) (g1 g2 : List String) :
    Vec ℝ n :=
  unitize (groupSum t g1) - unitize (groupSum t g2)

/-- The group-direction computation of the `v_racial` cell, on the member
vectors themselves (after lookup): normalize each group's sum, subtract,
normalize the difference. -/
noncomputable def dirFromVecs {n : ℕ} (l1 l2 : List (Vec ℝ n)) : Vec ℝ n :=
  unitize (unitize l1.sum - unitize l2.sum)

/-- `from_groups`: the `v_racial` cell's arithmetic wrapped in the spec's
error contract.  The `EmptyGroupError` / `UnknownWordError` shell is
modelled from the spec (section 4.2), since the notebook cell hard-codes
two non-empty in-vocabulary name groups and the imported `E.v`'s source is
not in this repository; the arithmetic inside `Except.ok` is the cell's. -/
noncomputable def from_groups {n : ℕ} (t : Table ℝ n) (gpos gneg : List String) :
    Except EmbedError (Vec ℝ n) :=
  if gpos.isEmpty || gneg.isEmpty then
    Except.error EmbedError.emptyGroup
  else if (gpos ++ gneg).all (hasWord t) then
    Except.ok (unitize (centroid_diff t gpos gneg))
  else
    Except.error EmbedError.unknownWord

theorem dotp_self_nonneg {n : ℕ} (v : Vec ℝ n) : 0 ≤ dotp v v :=
  Finset.sum_nonneg fun i _ => mul_self_nonneg (v i)

theorem dotp_self_pos {n : ℕ} {v : Vec ℝ n} (h : v ≠ 0) : 0 < dotp v v := by
  obtain ⟨i, hi⟩ := Function.ne_iff.mp h
  have hi0 : v i ≠ 0 := by simpa using hi
  exact Finset.sum_pos' (fun j _ => mul_self_nonneg (v j))
    ⟨i, Finset.mem_univ i, mul_self_pos.mpr hi0⟩

theorem norm2_nonneg {n : ℕ} (v : Vec ℝ n) : 0 ≤ norm2 v :=
  Real.sqrt_nonneg _

theorem sq_norm2 {n : ℕ} (v : Vec ℝ n) : norm2 v ^ 2 = dotp v v :=
  Real.sq_sqrt (dotp_self_nonneg v)

theorem norm2_pos {n : ℕ} {v : Vec ℝ n} (h : v ≠ 0) : 0 < norm2 v :=
  Real.sqrt_pos.mpr (dotp_self_pos h)

theorem norm2_eq_zero_iff {n : ℕ} {v : Vec ℝ n} : norm2 v = 0 ↔ v = 0 := by
  constructor
  · intro h
    by_contra hv
    exact absurd h (ne_of_gt (norm2_pos hv))
  · intro h
    subst h
    simp [norm2, dotp]

theorem unitize_zero {n : ℕ} : unitize (0 : Vec ℝ n) = 0 := by
  funext i
  simp [unitize]

theorem dotp_unitize_self {n : ℕ} {v : Vec ℝ n} (h : v ≠ 0) :
    dotp (unitize v) (unitize v) = 1 := by
  have hd : dotp v v ≠ 0 := ne_of_gt (dotp_self_pos h)
  unfold dotp unitize
  have : ∀ i : Fin n, v i / norm2 v * (v i / norm2 v) = v i * v i / norm2 v ^ 2 := by
    intro i
    rw [div_mul_div_comm, sq]
  simp only [this]
  rw [← Finset.sum_div, sq_norm2]
  exact div_self hd

theorem norm2_unitize {n : ℕ} {v : Vec ℝ n} (h : v ≠ 0) : norm2 (unitize v) = 1 := by
  unfold norm2
  rw [dotp_unitize_self h, Real.sqrt_one]

theorem norm2_neg {n : ℕ} (v : Vec ℝ n) : norm2 (-v) = norm2 v := by
  unfold norm2 dotp
  congr 1
  refine Finset.sum_congr rfl fun i _ => ?_
  simp

theorem unitize_neg {n : ℕ} (v : Vec ℝ n) : unitize (-v) = -(unitize v) := by
  funext i
  simp [unitize, norm2_neg, neg_div]

theorem norm2_smul {n : ℕ} {c : ℝ} (hc : 0 ≤ c) (v : Vec ℝ n) :
    norm2 (c • v) = c * norm2 v := by
  unfold norm2 dotp
  have : ∀ i : Fin n, (c • v) i * (c • v) i = c ^ 2 * (v i * v i) := by
    intro i
    simp [Pi.smul_apply, smul_eq_mul]
    ring
  simp only [this]
  rw [← Finset.mul_sum, Real.sqrt_mul (sq_nonneg c), Real.sqrt_sq hc]

theorem unitize_smul {n : ℕ} {c : ℝ} (hc : 0 < c) (v : Vec ℝ n) :
    unitize (c • v) = unitize v := by
  funext i
  rw [unitize, unitize, norm2_smul hc.le, Pi.smul_apply, smul_eq_mul,
    mul_div_mul_left _ _ (ne_of_gt hc)]

/-- When both groups are non-empty and all their words are known,
`from_groups` returns the cell's arithmetic result. -/
theorem from_groups_ok {n : ℕ} {t : Table ℝ n} {g1 g2 : List String}
    (h1 : g1 ≠ []) (h2 : g2 ≠ []) (hw : ∀ w ∈ g1 ++ g2, hasWord t w = true) :
    from_groups t g1 g2 = Except.ok (unitize (centroid_diff t g1 g2)) := by
  unfold from_groups
  rw [if_neg, if_pos]
  · exact List.all_eq_true.mpr hw
  · simp [List.isEmpty_iff, h1, h2]

/-- The spec's 2-word scenario vocabulary over `ℝ`: he=[1,0], she=[0,1]. -/
def table2R : Table ℝ 2 :=
  [("he", ![1, 0]), ("she", ![0, 1])]

theorem hasWord_table2R : ∀ w ∈ ["he", "she"], hasWord table2R w = true := by
  intro w hw
  simp only [List.mem_cons, List.not_mem_nil, or_false] at hw
  rcases hw with rfl | rfl <;> simp [hasWord, lookup, table2R]

theorem vecOf_table2R_he : vecOf table2R "he" = ![1, 0] := by
  simp [vecOf, lookup, table2R]

theorem vecOf_table2R_she : vecOf table2R "she" = ![0, 1] := by
  simp [vecOf, lookup, table2R]

theorem groupSum_single {n : ℕ} (t : Table ℝ n) (w : String) :
    groupSum t [w] = vecOf t w := by
  simp [groupSum]

theorem norm2_e1 : norm2 (![1, 0] : Vec ℝ 2) = 1 := by
  have hd : dotp (![1, 0] : Vec ℝ 2) ![1, 0] = 1 := by
    simp [dotp, Fin.sum_univ_two]
  rw [norm2, hd, Real.sqrt_one]

theorem norm2_e2 : norm2 (![0, 1] : Vec ℝ 2) = 1 := by
  have hd : dotp (![0, 1] : Vec ℝ 2) ![0, 1] = 1 := by
    simp [dotp, Fin.sum_univ_two]
  rw [norm2, hd, Real.sqrt_one]

theorem unitize_e1 : unitize (![1, 0] : Vec ℝ 2) = ![1, 0] := by
  funext i
  rw [unitize, norm2_e1]
  simp

theorem unitize_e2 : unitize (![0, 1] : Vec ℝ 2) = ![0, 1] := by
  funext i
  rw [unitize, norm2_e2]
  simp

theorem centroid_diff_she_he : centroid_diff table2R ["she"] ["he"] = ![-1, 1] := by
  rw [centroid_diff, groupSum_single, groupSum_single, vecOf_table2R_she,
    vecOf_table2R_he, unitize_e1, unitize_e2]
  funext i
  fin_cases i <;> simp

theorem centroid_diff_he_she : centroid_diff table2R ["he"] ["she"] = ![1, -1] := by
  rw [centroid_diff, groupSum_single, groupSum_single, vecOf_table2R_she,
    vecOf_table2R_he, unitize_e1, unitize_e2]
  funext i
  fin_cases i <;> simp

theorem centroid_diff_she_he_ne : centroid_diff table2R ["she"] ["he"] ≠ 0 := by
  rw [centroid_diff_she_he]
  intro h
  have h0 := congrFun h 0
  norm_num at h0

theorem centroid_diff_he_she_ne : centroid_diff table2R ["he"] ["she"] ≠ 0 := by
  rw [centroid_diff_he_she]
  intro h
  have h0 := congrFun h 0
  norm_num at h0

theorem norm2_m11 : norm2 (![-1, 1] : Vec ℝ 2) = Real.sqrt 2 := by
  rw [norm2]
  congr 1
  simp [dotp, Fin.sum_univ_two]
  norm_num

theorem inv_sqrt_two_bounds :
    (706 : ℝ) / 1000 ≤ 1 / Real.sqrt 2 ∧ 1 / Real.sqrt 2 ≤ 708 / 1000 := by
  have h1 : Real.sqrt 2 ^ 2 = 2 := Real.sq_sqrt (by norm_num)
  have h2 : 0 < Real.sqrt 2 := Real.sqrt_pos.mpr (by norm_num)
  have hub : Real.sqrt 2 ≤ 1.4143 := by
    nlinarith [h1, h2, sq_nonneg (Real.sqrt 2 - 1.4143)]
  have hlb : (1.4142 : ℝ) ≤ Real.sqrt 2 := by
    nlinarith [h1, h2]
  constructor
  · rw [le_div_iff₀ h2]
    nlinarith [hub]
  · rw [div_le_iff₀ h2]
    nlinarith [hlb]

/-- The group-scenario computation: `from_groups({"she"}, {"he"})` lands
within `1e-3` per component of `[-0.707, 0.707]`. -/
theorem scenario_she_he :
    ∃ v, from_groups table2R ["she"] ["he"] = Except.ok v
      ∧ |v 0 - -(707 / 1000)| ≤ 1 / 1000 ∧ |v 1 - 707 / 1000| ≤ 1 / 1000 := by
  have hw : ∀ w ∈ (["she"] ++ ["he"] : List String), hasWord table2R w = true := by
    intro w hmem
    apply hasWord_table2R
    simp only [List.cons_append, List.nil_append] at hmem
    simp only [List.mem_cons, List.not_mem_nil] at hmem ⊢
    tauto
  refine ⟨unitize (centroid_diff table2R ["she"] ["he"]),
    from_groups_ok (by simp) (by simp) hw, ?_, ?_⟩
  all_goals rw [centroid_diff_she_he]
  all_goals have hb := inv_sqrt_two_bounds
  · have h0 : unitize (![-1, 1] : Vec ℝ 2) 0 = -(1 / Real.sqrt 2) := by
      rw [unitize, norm2_m11]
      simp [neg_div]
    rw [h0, abs_le]
    constructor <;> nlinarith [hb.1, hb.2]
  · have h1 : unitize (![-1, 1] : Vec ℝ 2) 1 = 1 / Real.sqrt 2 := by
      rw [unitize, norm2_m11]
      simp
    rw [h1, abs_le]
    constructor <;> nlinarith [hb.1, hb.2]

/-- C1 (amended): over non-empty in-vocabulary groups, `from_groups` is
exactly the two-stage computation — per group sum the member vectors and
normalize to unit length, subtract the negative group's unit centroid from
the positive one's, normalize the difference; whenever the two unit
centroids differ the result has Euclidean norm `1`; and the concrete
`from_groups({"she"}, {"he"})` scenario lands within `1e-3` per component
of `[-0.707, 0.707]`. -/
theorem C1_from_groups_two_stage {n : ℕ} (t : Table ℝ n) (g1 g2 : List String)
    (h1 : g1 ≠ []) (h2 : g2 ≠ []) (hw : ∀ w ∈ g1 ++ g2, hasWord t w = true) :
    from_groups t g1 g2 =
      Except.ok (unitize (unitize (groupSum t g1) - unitize (groupSum t g2)))
    ∧ (centroid_diff t g1 g2 ≠ 0 →
        norm2 (unitize (centroid_diff t g1 g2)) = 1)
    ∧ (∃ v, from_groups table2R ["she"] ["he"] = Except.ok v
        ∧ |v 0 - -(707 / 1000)| ≤ 1 / 1000 ∧ |v 1 - 707 / 1000| ≤ 1 / 1000) := by
  refine ⟨?_, fun hd => norm2_unitize hd, scenario_she_he⟩
  have h := from_groups_ok h1 h2 hw
  rw [centroid_diff] at h
  exact h

/-- C1 as literally stated is false at a concrete input: the groups
`["he"]` and `["he"]` are non-empty and in-vocabulary, yet the returned
direction is the zero vector, whose Euclidean norm is `0`, not `1` (the
two unit centroids coincide, so the final normalization divides by zero;
NumPy would produce `nan` there, likewise of norm ≠ 1). -/
theorem C1_counterexample :
    (["he"] : List String) ≠ []
    ∧ (∀ w ∈ (["he"] ++ ["he"] : List String), hasWord table2R w = true)
    ∧ from_groups table2R ["he"] ["he"] = Except.ok 0
    ∧ ¬ norm2 (0 : Vec ℝ 2) = 1 := by
  refine ⟨by simp, ?_, ?_, ?_⟩
  · intro w hmem
    apply hasWord_table2R
    simp only [List.cons_append, List.nil_append, List.mem_cons,
      List.not_mem_nil] at hmem ⊢
    tauto
  · have hw : ∀ w ∈ (["he"] ++ ["he"] : List String), hasWord table2R w = true := by
      intro w hmem
      apply hasWord_table2R
      simp only [List.cons_append, List.nil_append, List.mem_cons,
        List.not_mem_nil] at hmem ⊢
      tauto
    rw [from_groups_ok (by simp) (by simp) hw]
    have hz : centroid_diff table2R ["he"] ["he"] = 0 := by
      rw [centroid_diff]
      exact sub_self _
    rw [hz, unitize_zero]
  · rw [norm2_eq_zero_iff.mpr rfl]
    norm_num

/-- Witness for C1 (amended) at the concrete `{"she"} / {"he"}` groups. -/
theorem C1_from_groups_two_stage_witness :
    ((["she"] : List String) ≠ [] ∧ (["he"] : List String) ≠ []
      ∧ (∀ w ∈ (["she"] ++ ["he"] : List String), hasWord table2R w = true))
    ∧ (from_groups table2R ["she"] ["he"] =
        Except.ok (unitize (unitize (groupSum table2R ["she"])
          - unitize (groupSum table2R ["he"])))
      ∧ (centroid_diff table2R ["she"] ["he"] ≠ 0 →
          norm2 (unitize (centroid_diff table2R ["she"] ["he"])) = 1)
      ∧ (∃ v, from_groups table2R ["she"] ["he"] = Except.ok v
          ∧ |v 0 - -(707 / 1000)| ≤ 1 / 1000 ∧ |v 1 - 707 / 1000| ≤ 1 / 1000)) := by
  have hw : ∀ w ∈ (["she"] ++ ["he"] : List String), hasWord table2R w = true := by
    intro w hmem
    apply hasWord_table2R
    simp only [List.cons_append, List.nil_append, List.mem_cons,
      List.not_mem_nil] at hmem ⊢
    tauto
  exact ⟨⟨by simp, by simp, hw⟩,
    C1_from_groups_two_stage table2R ["she"] ["he"] (by simp) (by simp) hw⟩

/-- C2: `from_groups` fails with `EmptyGroupError` whenever either group
argument is empty. -/
theorem C2_empty_group {n : ℕ} (t : Table ℝ n) (g1 g2 : List String)
    (h : g1 = [] ∨ g2 = []) :
    from_groups t g1 g2 = Except.error EmbedError.emptyGroup := by
  unfold from_groups
  rw [if_pos]
  rcases h with rfl | rfl <;> simp

/-- Witness for C2: `from_groups([], ["he"])` raises `EmptyGroupError`. -/
theorem C2_empty_group_witness :
    (([] : List String) = [] ∨ (["he"] : List String) = [])
    ∧ from_groups table2R [] ["he"] = Except.error EmbedError.emptyGroup :=
  ⟨Or.inl rfl, C2_empty_group table2R [] ["he"] (Or.inl rfl)⟩

/-- C6: `from_groups` is antisymmetric — swapping the two groups negates
the resulting direction componentwise. -/
theorem C6_antisymmetric {n : ℕ} (t : Table ℝ n) (g1 g2 : List String)
    (h1 : g1 ≠ []) (h2 : g2 ≠ []) (hw : ∀ w ∈ g1 ++ g2, hasWord t w = true)
    (hd1 : centroid_diff t g1 g2 ≠ 0) (hd2 : centroid_diff t g2 g1 ≠ 0) :
    from_groups t g1 g2 = Except.map (fun v => -v) (from_groups t g2 g1) := by
  have hw' : ∀ w ∈ g2 ++ g1, hasWord t w = true := by
    intro w hmem
    apply hw
    rw [List.mem_append] at hmem ⊢
    tauto
  rw [from_groups_ok h1 h2 hw, from_groups_ok h2 h1 hw']
  have hneg : centroid_diff t g1 g2 = -(centroid_diff t g2 g1) := by
    unfold centroid_diff
    rw [neg_sub]
  rw [Except.map, hneg, unitize_neg]

/-- Witness for C6 at the concrete `{"she"} / {"he"}` groups. -/
theorem C6_antisymmetric_witness :
    ((["she"] : List String) ≠ [] ∧ (["he"] : List String) ≠ []
      ∧ (∀ w ∈ (["she"] ++ ["he"] : List String), hasWord table2R w = true)
      ∧ centroid_diff table2R ["she"] ["he"] ≠ 0
      ∧ centroid_diff table2R ["he"] ["she"] ≠ 0)
    ∧ from_groups table2R ["she"] ["he"] =
        Except.map (fun v => -v) (from_groups table2R ["he"] ["she"]) := by
  have hw : ∀ w ∈ (["she"] ++ ["he"] : List String), hasWord table2R w = true := by
    intro w hmem
    apply hasWord_table2R
    simp only [List.cons_append, List.nil_append, List.mem_cons,
      List.not_mem_nil] at hmem ⊢
    tauto
  exact ⟨⟨by simp, by simp, hw, centroid_diff_she_he_ne, centroid_diff_he_she_ne⟩,
    C6_antisymmetric table2R ["she"] ["he"] (by simp) (by simp) hw
      centroid_diff_she_he_ne centroid_diff_he_she_ne⟩

/-- C9: there are non-empty in-vocabulary groups — here `["he"]` against
`["he"]` — on which the `from_groups` computation's final normalization
divides by a zero magnitude, and no error of the spec's list is raised:
the call returns an ordinary `ok` value instead. -/
theorem C9_zero_magnitude_uncovered :
    (["he"] : List String) ≠ []
    ∧ (∀ w ∈ (["he"] ++ ["he"] : List String), hasWord table2R w = true)
    ∧ norm2 (centroid_diff table2R ["he"] ["he"]) = 0
    ∧ from_groups table2R ["he"] ["he"] =
        Except.ok (unitize (centroid_diff table2R ["he"] ["he"])) := by
  have hw : ∀ w ∈ (["he"] ++ ["he"] : List String), hasWord table2R w = true := by
    intro w hmem
    apply hasWord_table2R
    simp only [List.cons_append, List.nil_append, List.mem_cons,
      List.not_mem_nil] at hmem ⊢
    tauto
  have hz : centroid_diff table2R ["he"] ["he"] = 0 := by
    rw [centroid_diff]
    exact sub_self _
  exact ⟨by simp, hw, by rw [hz]; exact norm2_eq_zero_iff.mpr rfl,
    from_groups_ok (by simp) (by simp) hw⟩

theorem dirFromVecs_smul_left {n : ℕ} {c : ℝ} (hc : 0 < c)
    (l1 l2 : List (Vec ℝ n)) :
    dirFromVecs (l1.map (fun v => c • v)) l2 = dirFromVecs l1 l2 := by
  unfold dirFromVecs
  rw [← List.smul_sum, unitize_smul hc]

theorem dirFromVecs_smul_right {n : ℕ} {c : ℝ} (hc : 0 < c)
    (l1 l2 : List (Vec ℝ n)) :
    dirFromVecs l1 (l2.map (fun v => c • v)) = dirFromVecs l1 l2 := by
  unfold dirFromVecs
  rw [← List.smul_sum, unitize_smul hc]

/-- C10: `from_groups` is invariant under uniform positive scaling of one
group's member vectors: scaling every looked-up vector of either group by
`c > 0` before the group-sum leaves the resulting direction unchanged,
because each group's sum is normalized to unit length before the
difference is taken. -/
theorem C10_scale_invariance {n : ℕ} (t : Table ℝ n) (g1 g2 : List String)
    (c : ℝ) (hc : 0 < c) (h1 : g1 ≠ []) (h2 : g2 ≠ [])
    (hw : ∀ w ∈ g1 ++ g2, hasWord t w = true) :
    from_groups t g1 g2 =
      Except.ok (dirFromVecs ((g1.map (vecOf t)).map (fun v => c • v))
        (g2.map (vecOf t)))
    ∧ from_groups t g1 g2 =
      Except.ok (dirFromVecs (g1.map (vecOf t))
        ((g2.map (vecOf t)).map (fun v => c • v))) := by
  have hbase : from_groups t g1 g2 =
      Except.ok (dirFromVecs (g1.map (vecOf t)) (g2.map (vecOf t))) := by
    rw [from_groups_ok h1 h2 hw]
    rfl
  rw [hbase, dirFromVecs_smul_left hc, dirFromVecs_smul_right hc]
  exact ⟨rfl, rfl⟩

/-- Witness for C10 at the concrete `{"she"} / {"he"}` groups with `c = 2`. -/
theorem C10_scale_invariance_witness :
    ((0 : ℝ) < 2 ∧ (["she"] : List String) ≠ [] ∧ (["he"] : List String) ≠ []
      ∧ (∀ w ∈ (["she"] ++ ["he"] : List String), hasWord table2R w = true))
    ∧ (from_groups table2R ["she"] ["he"] =
        Except.ok (dirFromVecs ((["she"].map (vecOf table2R)).map (fun v => (2 : ℝ) • v))
          (["he"].map (vecOf table2R)))
      ∧ from_groups table2R ["she"] ["he"] =
        Except.ok (dirFromVecs (["she"].map (vecOf table2R))
          ((["he"].map (vecOf table2R)).map (fun v => (2 : ℝ) • v)))) := by
  have hw : ∀ w ∈ (["she"] ++ ["he"] : List String), hasWord table2R w = true := by
    intro w hmem
    apply hasWord_table2R
    simp only [List.cons_append, List.nil_append, List.mem_cons,
      List.not_mem_nil] at hmem ⊢
    tauto
  exact ⟨⟨by norm_num, by simp, by simp, hw⟩,
    C10_scale_invariance table2R ["she"] ["he"] 2 (by norm_num) (by simp)
      (by simp) hw⟩

/-! ## VectorTable index lookups (spec section 4.1) -/

/-- Modelled from the spec: the word→index lookup of the VectorTable (the
imported `WordEmbedding` keeps a word/index mapping; its source is not in
this repository).  The index is the position of the word's first
occurrence in the ordered vocabulary. -/
def idxIn : List String → String → ℕ
  | [], _ => 0
  | x :: xs, w => if x = w then 0 else idxIn xs w + 1

/-- `index_of(w)`: position of `w` in the table's vocabulary. -/
def index_of {α : Type} {n : ℕ} (t : Table α n) (w : String) : ℕ :=
  idxIn (vocab t) w

/-- Modelled from the spec: `word_at(index) -> string`, failing with
`IndexOutOfRangeError` if the index is invalid. -/
def word_at {α : Type} {n : ℕ} (t : Table α n) (i : ℕ) : Except EmbedError String :=
  if h : i < (vocab t).length then
    Except.ok ((vocab t).get ⟨i, h⟩)
  else
    Except.error EmbedError.indexOutOfRange

theorem idxIn_lt_length {l : List String} {w : String} (h : w ∈ l) :
    idxIn l w < l.length := by
  induction l with
  | nil => cases h
  | cons x xs ih =>
    by_cases hx : x = w
    · simp [idxIn, hx]
    · have hmem : w ∈ xs := by
        rcases List.mem_cons.mp h with rfl | hm
        · exact absurd rfl hx
        · exact hm
      simp only [idxIn, if_neg hx, List.length_cons]
      exact Nat.succ_lt_succ (ih hmem)

theorem get_idxIn {l : List String} {w : String} (h : w ∈ l)
    (hlt : idxIn l w < l.length) : l.get ⟨idxIn l w, hlt⟩ = w := by
  induction l with
  | nil => cases h
  | cons x xs ih =>
    by_cases hx : x = w
    · simp [idxIn, hx]
    · have hmem : w ∈ xs := by
        rcases List.mem_cons.mp h with rfl | hm
        · exact absurd rfl hx
        · exact hm
      have hlt' : idxIn xs w < xs.length := idxIn_lt_length hmem
      have hidx : idxIn (x :: xs) w = idxIn xs w + 1 := by simp [idxIn, hx]
      rw [show (⟨idxIn (x :: xs) w, hlt⟩ : Fin (x :: xs).length) =
        ⟨idxIn xs w + 1, Nat.succ_lt_succ hlt'⟩ from Fin.ext hidx]
      simpa using ih hmem hlt'

theorem idxIn_get {l : List String} (hnd : l.Nodup) (i : Fin l.length) :
    idxIn l (l.get i) = i := by
  induction l with
  | nil => exact absurd i.isLt (by simp)
  | cons x xs ih =>
    rcases List.nodup_cons.mp hnd with ⟨hx, hxs⟩
    rcases Fin.eq_zero_or_eq_succ i with rfl | ⟨j, rfl⟩
    · simp [idxIn]
    · have hget : (x :: xs).get j.succ = xs.get j := by simp
      rw [hget, idxIn]
      have hne : ¬ x = xs.get j := fun hEq => hx (hEq ▸ List.get_mem xs j.1 j.2)
      rw [if_neg hne, ih hxs j]
      simp

/-- C8: with distinct vocabulary words (the data-model invariant), the
word→index and index→word lookups are mutual inverses: for every word `w`
of the vocabulary, `word_at (index_of w) = w`, and for every valid index
`i`, `index_of (word_at i) = i`. -/
theorem C8_index_round_trip {α : Type} {n : ℕ} (t : Table α n)
    (hnd : (vocab t).Nodup) :
    (∀ w ∈ vocab t, word_at t (index_of t w) = Except.ok w)
    ∧ (∀ i : Fin (vocab t).length, index_of t ((vocab t).get i) = i) := by
  constructor
  · intro w hw
    have hlt : idxIn (vocab t) w < (vocab t).length := idxIn_lt_length hw
    rw [word_at, index_of, dif_pos hlt, get_idxIn hw hlt]
  · intro i
    exact idxIn_get hnd i

/-- Witness for C8 at the concrete four-word table. -/
theorem C8_index_round_trip_witness :
    (vocab table4q).Nodup
    ∧ ((∀ w ∈ vocab table4q, word_at table4q (index_of table4q w) = Except.ok w)
      ∧ (∀ i : Fin (vocab table4q).length,
          index_of table4q ((vocab table4q).get i) = i)) := by
  have hnd : (vocab table4q).Nodup := by
    simp only [vocab, table4q, List.map_cons, List.map_nil]
    decide
  exact ⟨hnd, C8_index_round_trip table4q hnd⟩

/-! ## AnalogyFinder (spec section 4.4)

The notebook calls the imported `E.best_analogies_dist_thresh(v_gender)`;
that function's source is not part of this repository, so the finder is
modelled from the spec's six-step algorithm: restrict to the `K` most
frequent words (vocabulary order), enumerate each unordered pair once,
orient each pair so its difference vector agrees in sign with the
reference direction, accept by a cosine-similarity threshold and a
magnitude-gap threshold, and sort by descending cosine similarity then
ascending magnitude gap. -/

/-- Every unordered pair of elements of a list, each exactly once, the
earlier-positioned element first. -/
def upairs {β : Type} : List β → List (β × β)
  | [] => []
  | x :: xs => xs.map (fun y => (x, y)) ++ upairs xs

/-- Cosine similarity. -/
noncomputable def cos_sim {n : ℕ} (v w : Vec ℝ n) : ℝ :=
  dotp v w / (norm2 v * norm2 w)

/-- The difference vector `vector(a) − vector(b)` of a candidate pair. -/
noncomputable def pair_diff {n : ℕ} (t : Table ℝ n) (p : String × String) :
    Vec ℝ n :=
  vecOf t p.1 - vecOf t p.2

/-- Modelled from the spec (step 5): orient a pair so its difference
vector agrees in sign with the reference direction. -/
noncomputable def orient_pair {n : ℕ} (t : Table ℝ n) (ref : Vec ℝ n)
    (p : String × String) : String × String :=
  if cos_sim (pair_diff t p) ref < 0 then (p.2, p.1) else p

/-- Modelled from the spec (steps 3–4): accept a pair when its cosine
similarity with the reference exceeds the similarity threshold and its
magnitude gap is below the distance threshold. -/
noncomputable def analogy_keep {n : ℕ} (t : Table ℝ n) (ref : Vec ℝ n)
    (tcos tgap : ℝ) (p : String × String) : Bool :=
  decide (tcos < cos_sim (pair_diff t p) ref)
    && decide (|norm2 (pair_diff t p) - norm2 ref| < tgap)

/-- Modelled from the spec (step 6): descending cosine similarity first,
ascending magnitude gap second. -/
noncomputable def analogy_order {n : ℕ} (t : Table ℝ n) (ref : Vec ℝ n)
    (p q : String × String) : Prop :=
  cos_sim (pair_diff t q) ref < cos_sim (pair_diff t p) ref
  ∨ (cos_sim (pair_diff t p) ref = cos_sim (pair_diff t q) ref
      ∧ |norm2 (pair_diff t p) - norm2 ref| ≤ |norm2 (pair_diff t q) - norm2 ref|)

noncomputable instance {n : ℕ} (t : Table ℝ n) (ref : Vec ℝ n) :
    DecidableRel (analogy_order t ref) :=
  fun p q => by unfold analogy_order; infer_instance

/-- Modelled from the spec: `best_analogies_dist_thresh` — the spec's
six-step analogy enumeration over the `K` most frequent words, returning
`AnalogyPair` triples `(word_a, word_b, vector_diff)`. -/
noncomputable def best_analogies_dist_thresh {n : ℕ} (t : Table ℝ n)
    (ref : Vec ℝ n) (K : ℕ) (tcos tgap : ℝ) :
    List (String × String × Vec ℝ n) :=
  let cands := (vocab t).take K
  let oriented := (upairs cands).map (orient_pair t ref)
  let accepted := oriented.filter (analogy_keep t ref tcos tgap)
  let sorted := List.insertionSort (analogy_order t ref) accepted
  sorted.map (fun p => (p.1, p.2, pair_diff t p))

/-- Two ordered pairs that differ as unordered pairs: neither equal nor
each other's swap. -/
def distinct_upair (p q : String × String) : Prop :=
  ¬ (p.1 = q.1 ∧ p.2 = q.2) ∧ ¬ (p.1 = q.2 ∧ p.2 = q.1)

theorem distinct_upair_symm : ∀ {p q : String × String},
    distinct_upair p q → distinct_upair q p := by
  intro p q h
  unfold distinct_upair at h ⊢
  tauto

theorem mem_upairs {β : Type} {l : List β} {p : β × β} (h : p ∈ upairs l) :
    p.1 ∈ l ∧ p.2 ∈ l := by
  induction l with
  | nil => cases h
  | cons x xs ih =>
    rcases List.mem_append.mp h with hm | hm
    · obtain ⟨y, hy, rfl⟩ := List.mem_map.mp hm
      exact ⟨List.mem_cons_self x xs, List.mem_cons_of_mem x hy⟩
    · obtain ⟨h1, h2⟩ := ih hm
      exact ⟨List.mem_cons_of_mem x h1, List.mem_cons_of_mem x h2⟩

theorem upairs_ne {l : List String} (hnd : l.Nodup) :
    ∀ p ∈ upairs l, p.1 ≠ p.2 := by
  induction l with
  | nil => intro p hp; cases hp
  | cons x xs ih =>
    rcases List.nodup_cons.mp hnd with ⟨hx, hxs⟩
    intro p hp
    rcases List.mem_append.mp hp with hm | hm
    · obtain ⟨y, hy, rfl⟩ := List.mem_map.mp hm
      exact fun hEq => hx ((show x = y from hEq) ▸ hy)
    · exact ih hxs p hm

theorem upairs_pairwise {l : List String} (hnd : l.Nodup) :
    (upairs l).Pairwise distinct_upair := by
  induction l with
  | nil => exact List.Pairwise.nil
  | cons x xs ih =>
    rcases List.nodup_cons.mp hnd with ⟨hx, hxs⟩
    rw [upairs, List.pairwise_append]
    refine ⟨?_, ih hxs, ?_⟩
    · rw [List.pairwise_map]
      refine (List.Pairwise.imp_of_mem ?_ hxs)
      intro y z hy hz hyz
      refine ⟨fun hc => hyz hc.2, fun hc => hx ((show x = z from hc.1) ▸ hz)⟩
    · intro a ha b hb
      obtain ⟨y, hy, rfl⟩ := List.mem_map.mp ha
      obtain ⟨hb1, hb2⟩ := mem_upairs hb
      exact ⟨fun hc => hx ((show x = b.1 from hc.1) ▸ hb1),
        fun hc => hx ((show x = b.2 from hc.1) ▸ hb2)⟩

theorem orient_pair_cases {n : ℕ} (t : Table ℝ n) (ref : Vec ℝ n)
    (p : String × String) :
    orient_pair t ref p = p ∨ orient_pair t ref p = (p.2, p.1) := by
  unfold orient_pair
  split
  · exact Or.inr rfl
  · exact Or.inl rfl

theorem orient_pair_ne {n : ℕ} (t : Table ℝ n) (ref : Vec ℝ n)
    {p : String × String} (h : p.1 ≠ p.2) :
    (orient_pair t ref p).1 ≠ (orient_pair t ref p).2 := by
  rcases orient_pair_cases t ref p with hc | hc <;> rw [hc]
  · exact h
  · exact h.symm

theorem orient_pair_distinct {n : ℕ} (t : Table ℝ n) (ref : Vec ℝ n)
    {p q : String × String} (h : distinct_upair p q) :
    distinct_upair (orient_pair t ref p) (orient_pair t ref q) := by
  obtain ⟨p1, p2⟩ := p
  obtain ⟨q1, q2⟩ := q
  unfold distinct_upair at h ⊢
  dsimp only at h
  rcases orient_pair_cases t ref (p1, p2) with hc | hc <;>
    rcases orient_pair_cases t ref (q1, q2) with hd | hd <;>
      rw [hc, hd] <;> dsimp only <;> tauto

/-- C7: over a duplicate-free vocabulary, the analogy finder never
returns a pair `(a, b)` with `a = b`, and never returns both orientations
`(a, b)` and `(b, a)` of the same unordered word pair — for every
reference direction, every candidate-pool bound `K` and both thresholds. -/
theorem C7_no_self_no_both_orientations {n : ℕ} (t : Table ℝ n)
    (ref : Vec ℝ n) (K : ℕ) (tcos tgap : ℝ) (hnd : (vocab t).Nodup) :
    (∀ q ∈ best_analogies_dist_thresh t ref K tcos tgap, q.1 ≠ q.2.1)
    ∧ (best_analogies_dist_thresh t ref K tcos tgap).Pairwise
        (fun p q => ¬ (p.1 = q.2.1 ∧ p.2.1 = q.1)) := by
  have hndc : ((vocab t).take K).Nodup :=
    (List.take_sublist K (vocab t)).nodup hnd
  have hperm := List.perm_insertionSort (analogy_order t ref)
    (((upairs ((vocab t).take K)).map (orient_pair t ref)).filter
      (analogy_keep t ref tcos tgap))
  constructor
  · intro q hq
    obtain ⟨p, hp, rfl⟩ := List.mem_map.mp hq
    have hpacc := hperm.subset hp
    have hpor := List.mem_of_mem_filter hpacc
    obtain ⟨r, hr, rfl⟩ := List.mem_map.mp hpor
    exact orient_pair_ne t ref (upairs_ne hndc r hr)
  · refine List.Pairwise.map (R := distinct_upair) _ (fun a b h => ?_) ?_
    · exact fun hc => h.2 ⟨hc.1, hc.2⟩
    · refine ((hperm.pairwise_iff distinct_upair_symm).mpr ?_)
      refine List.Pairwise.sublist (List.filter_sublist _) ?_
      exact List.Pairwise.map (R := distinct_upair) _
        (fun a b h => orient_pair_distinct t ref h) (upairs_pairwise hndc)

/-- Witness for C7 at the concrete two-word table. -/
theorem C7_no_self_no_both_orientations_witness :
    (vocab table2R).Nodup
    ∧ ((∀ q ∈ best_analogies_dist_thresh table2R ![1, 0] 2 (1 / 2) (1 / 2),
          q.1 ≠ q.2.1)
      ∧ (best_analogies_dist_thresh table2R ![1, 0] 2 (1 / 2) (1 / 2)).Pairwise
          (fun p q => ¬ (p.1 = q.2.1 ∧ p.2.1 = q.1))) := by
  have hnd : (vocab table2R).Nodup := by
    simp only [vocab, table2R, List.map_cons, List.map_nil]
    decide
  exact ⟨hnd,
    C7_no_self_no_both_orientations table2R ![1, 0] 2 (1 / 2) (1 / 2) hnd⟩

end Debiaswe
